import Mathlib

/-!
Shallow embedding of the MARC-21 record model of `ub_tools`
(`src/cpp/lib/src/MarcRecord.cc`, `src/cpp/lib/DirectoryEntry.h`) together
with the record-consuming logic of `src/cpp/fix_article_biblio_levels.cc`
and `src/cpp/merge_print_and_online.cc`, and proofs about this embedding.

Strings from the C++ code are modelled as `List Char` (byte buffers, field
values) or `String` (three-character tags); machine `size_t` indices are
modelled as `Nat`.
-/

namespace Marc

/-- One MARC-21 directory entry: a 3-character tag, the field length
(including the trailing 0x1E terminator) and the field offset into the
record's raw data buffer (`DirectoryEntry.h`). -/
structure DirectoryEntry where
  tag : String
  fieldLength : Nat
  fieldOffset : Nat
  deriving DecidableEq, Repr, Inhabited

/-- A MARC record: 24-byte leader, ordered directory entries, raw data
buffer of concatenated 0x1E-terminated field contents (`MarcRecord.h/.cc`). -/
structure MarcRecord where
  leader : List Char
  directoryEntries : List DirectoryEntry
  rawData : List Char
  deriving DecidableEq, Repr, Inhabited

/-- Modelled from the spec: the sentinel `MarcRecord::FIELD_NOT_FOUND`
returned by `getFieldIndex` when a tag is absent (the header defining its
numeric value, `MarcRecord.h`, is not part of the sources; it is the
largest `size_t` value, `SIZE_MAX` on a 64-bit platform). -/
def FIELD_NOT_FOUND : Nat := 2 ^ 64 - 1

/-- The linear first-match scan of `MarcRecord::getFieldIndex`
(MarcRecord.cc:76-82), as an `Option`-valued helper. -/
def findTagIdx (tag : String) : List DirectoryEntry → Option Nat
  | [] => none
  | e :: rest => if e.tag = tag then some 0 else (findTagIdx tag rest).map (· + 1)

/-- `MarcRecord::getFieldIndex` (MarcRecord.cc:76-82): index of the first
directory entry with the given tag, `FIELD_NOT_FOUND` when absent. -/
def MarcRecord.getFieldIndex (r : MarcRecord) (tag : String) : Nat :=
  (findTagIdx tag r.directoryEntries).getD FIELD_NOT_FOUND

/-- `MarcRecord::getFieldData(size_t)` (MarcRecord.cc:42-47): the substring
of `raw_data_` described by the entry's offset and length minus one (the
terminator is stripped).  The source's out-of-range guard is the iterator
comparison `cbegin() + index >= cend()`; the `index < length` branch here
renders that guard's intended bounds-check semantics, which the machine
comparison implements only below the pointer-wrap range: at wrap-range
indices such as `FIELD_NOT_FOUND` the machine's address arithmetic wraps,
the guard misses and the access is undefined (see `iterGuardFires`), so
this model is faithful only for indices below the wrap range. -/
def MarcRecord.getFieldData (r : MarcRecord) (index : Nat) : List Char :=
  if h : index < r.directoryEntries.length then
    let e := r.directoryEntries.get ⟨index, h⟩
    (r.rawData.drop e.fieldOffset).take (e.fieldLength - 1)
  else []

/-- `MarcRecord::getTag` (MarcRecord.cc:69-73): tag of the entry at the
given index; the out-of-range branch renders the intended semantics of
the same `cbegin() + index >= cend()` guard as `getFieldData`, faithful
only below the pointer-wrap range (see `iterGuardFires`). -/
def MarcRecord.getTag (r : MarcRecord) (index : Nat) : String :=
  if h : index < r.directoryEntries.length then
    (r.directoryEntries.get ⟨index, h⟩).tag
  else ""

/-- A parsed subfield list: (code, value) pairs (`Subfields`). -/
def Subfields := List (Char × List Char)

instance : DecidableEq Subfields := by
  unfold Subfields
  infer_instance

instance : Inhabited Subfields := ⟨([] : List (Char × List Char))⟩

/-- Modelled from the spec: the value-collection state of the `Subfields`
parse — inside a subfield with the given code, accumulating the value in
reverse until the next 0x1F delimiter or the end of the field. -/
def parseSubBody (code : Char) (acc : List Char) :
    List Char → List (Char × List Char)
  | [] => [(code, acc.reverse)]
  | c :: rest =>
    if c = '\x1F' then
      (code, acc.reverse) ::
        (match rest with
         | [] => []
         | code2 :: rest2 => parseSubBody code2 [] rest2)
    else
      parseSubBody code (c :: acc) rest

/-- Modelled from the spec: the `Subfields` parse (Subfields.cc is not part
of the sources).  Raw field bytes are `indicator1 indicator2 (0x1F code
value)*`; the scan collects every 0x1F-introduced group as a (code, value)
pair, the value running until the next 0x1F. -/
def parseSubfieldsFrom : List Char → List (Char × List Char)
  | [] => []
  | c :: rest =>
    if c = '\x1F' then
      match rest with
      | [] => []
      | code :: rest2 => parseSubBody code [] rest2
    else
      parseSubfieldsFrom rest

/-- Modelled from the spec: constructing a `Subfields` object from raw
field bytes (the default-constructed object is the empty list). -/
def Subfields.parse (raw : List Char) : Subfields := parseSubfieldsFrom raw

/-- Modelled from the spec: `Subfields::getFirstSubfieldValue` — the value
of the first subfield with the given code, empty when absent. -/
def Subfields.getFirstSubfieldValue (s : Subfields) (code : Char) : List Char :=
  match (s : List (Char × List Char)).find? (fun p => p.1 = code) with
  | some p => p.2
  | none => []

/-- `MarcRecord::getSubfields(size_t)` (MarcRecord.cc:55-59): parse the
field's data; the out-of-range branch renders the intended semantics of
the same `cbegin() + index >= cend()` guard as `getFieldData`, faithful
only below the pointer-wrap range (see `iterGuardFires`). -/
def MarcRecord.getSubfields (r : MarcRecord) (index : Nat) : Subfields :=
  if index < r.directoryEntries.length then
    Subfields.parse (r.getFieldData index)
  else
    ([] : List (Char × List Char))

/-- Record well-formedness (spec §3 invariant): every directory entry's
offset plus length lies within the raw data buffer. -/
def MarcRecord.WellFormed (r : MarcRecord) : Prop :=
  ∀ e ∈ r.directoryEntries, e.fieldOffset + e.fieldLength ≤ r.rawData.length

instance (r : MarcRecord) : Decidable r.WellFormed := by
  unfold MarcRecord.WellFormed
  infer_instance

/-- Modelled from the spec: the `MarcTag` byte-wise lexicographic
comparison (the MarcTag class is not under src/; `std::string` comparison
is lexicographic on bytes).  `charListLe a b` is `a <= b`. -/
def charListLe : List Char → List Char → Bool
  | [], _ => true
  | _ :: _, [] => false
  | a :: as, b :: bs =>
    if a < b then true
    else if b < a then false
    else charListLe as bs

/-- Tag comparison `a <= b` on the underlying characters. -/
def tagLe (a b : String) : Bool := charListLe a.data b.data

/-- `MarcRecord::insertField` (MarcRecord.cc:119-133): advance the
insertion location while `new_field_tag >= it->getTag()`, insert a new
directory entry there pointing at the end of the raw data, append the
value plus the 0x1E terminator, and return the new entry's index. -/
def MarcRecord.insertField (r : MarcRecord) (tag : String) (value : List Char) :
    MarcRecord × Nat :=
  let p := (r.directoryEntries.takeWhile (fun e => tagLe e.tag tag)).length
  let e : DirectoryEntry := ⟨tag, value.length + 1, r.rawData.length⟩
  (⟨r.leader,
    r.directoryEntries.take p ++ e :: r.directoryEntries.drop p,
    r.rawData ++ value ++ ['\x1E']⟩, p)

/-- `MarcRecord::updateField` (MarcRecord.cc:99-109): rewrite the entry's
offset to the current end of the raw data and its length to the new
value's length plus one, then append the value plus the 0x1E terminator. -/
def MarcRecord.updateField (r : MarcRecord) (index : Nat) (value : List Char) :
    MarcRecord :=
  let oldTag := (r.directoryEntries.getD index default).tag
  { r with
    directoryEntries :=
      r.directoryEntries.set index ⟨oldTag, value.length + 1, r.rawData.length⟩,
    rawData := r.rawData ++ value ++ ['\x1E'] }

/-- The copy loop of `MarcRecord::deleteFields` (MarcRecord.cc:141-153):
for each block, copy the entries from `copy_start` up to the block's start
and resume copying at the block's end; finally copy the rest. -/
def deleteFieldsGo (entries : List DirectoryEntry) (copyStart : Nat) :
    List (Nat × Nat) → List DirectoryEntry
  | [] => entries.drop copyStart
  | b :: bs =>
    (entries.drop copyStart).take (b.1 - copyStart) ++ deleteFieldsGo entries b.2 bs

/-- `MarcRecord::deleteFields` (MarcRecord.cc:141-153). -/
def MarcRecord.deleteFields (r : MarcRecord) (blocks : List (Nat × Nat)) :
    MarcRecord :=
  { r with directoryEntries := deleteFieldsGo r.directoryEntries 0 blocks }

/-- The block-collection loop of `MarcRecord::filterTags`
(MarcRecord.cc:277-290): on meeting an entry whose tag is in the drop set,
record the `[start,end)` range of the run of entries with that same tag;
the outer loop's increment then skips the entry just past the run. -/
def collectDropBlocks (drop : List String) :
    List DirectoryEntry → Nat → List (Nat × Nat)
  | [], _ => []
  | e :: rest, pos =>
    if e.tag ∈ drop then
      let run := 1 + (rest.takeWhile (fun e2 => decide (e2.tag = e.tag))).length
      (pos, pos + run) :: collectDropBlocks drop (rest.drop run) (pos + run + 1)
    else
      collectDropBlocks drop rest (pos + 1)
termination_by l _ => l.length
decreasing_by
  · simp only [List.length_cons, List.length_drop]
    omega
  · simp only [List.length_cons]
    omega

/-- `MarcRecord::filterTags` (MarcRecord.cc:277-290). -/
def MarcRecord.filterTags (r : MarcRecord) (drop : List String) : MarcRecord :=
  r.deleteFields (collectDropBlocks drop r.directoryEntries 0)

/-- The collection loop of `MarcRecord::getFieldIndices`
(MarcRecord.cc:85-96): starting from an index, collect consecutive indices
while they are in range and their entry's tag matches; `fuel` bounds the
iteration count (the caller passes enough to reach the directory's end). -/
def collectRunGo (entries : List DirectoryEntry) (tag : String) :
    Nat → Nat → List Nat
  | 0, _ => []
  | fuel + 1, i =>
    if h : i < entries.length then
      if (entries.get ⟨i, h⟩).tag = tag then
        i :: collectRunGo entries tag fuel (i + 1)
      else []
    else []

/-- The collection loop of `MarcRecord::getFieldIndices` starting at
index `i`. -/
def collectRun (entries : List DirectoryEntry) (tag : String) (i : Nat) :
    List Nat :=
  collectRunGo entries tag (entries.length - i) i

/-- `MarcRecord::getFieldIndices` (MarcRecord.cc:85-96): first-match index
via `getFieldIndex`, then the consecutive same-tag run from there. -/
def MarcRecord.getFieldIndices (r : MarcRecord) (tag : String) : List Nat :=
  collectRun r.directoryEntries tag (r.getFieldIndex tag)

/-- The local-block header test of `MarcRecord::findAllLocalDataBlocks`
(MarcRecord.cc:238): the field data starts with `"  " 0x1F "0000"`. -/
def isLokHeader (fd : List Char) : Bool :=
  [' ', ' ', '\x1F', '0', '0', '0', '0'].isPrefixOf fd

/-- The scan loop of `MarcRecord::findAllLocalDataBlocks`
(MarcRecord.cc:236-244): walk `e` from `s+1` to `n`; each header field
closes the current block; finally push the open block. -/
def lokScan (r : MarcRecord) (s e n : Nat) : List (Nat × Nat) :=
  if e < n then
    if isLokHeader (r.getFieldData e) then
      (s, e) :: lokScan r e (e + 1) n
    else
      lokScan r s (e + 1) n
  else
    [(s, e)]
termination_by n - e

/-- `MarcRecord::findAllLocalDataBlocks` (MarcRecord.cc:229-247). -/
def MarcRecord.findAllLocalDataBlocks (r : MarcRecord) : List (Nat × Nat) :=
  let s := r.getFieldIndex "LOK"
  if s = FIELD_NOT_FOUND then []
  else lokScan r s (s + 1) r.directoryEntries.length

/-- `IndicatorsMatch` (MarcRecord.cc:250-256): each pattern position either
is the `'?'` wildcard or equals the corresponding indicator character. -/
def IndicatorsMatch (pat ind : List Char) : Bool :=
  (pat.getD 0 '\x00' = '?' || pat.getD 0 '\x00' = ind.getD 0 '\x00') &&
    (pat.getD 1 '\x00' = '?' || pat.getD 1 '\x00' = ind.getD 1 '\x00')

/-- `MarcRecord::findFieldsInLocalBlock` (MarcRecord.cc:259-274): fatal
error (`none`) when the indicator pattern is not exactly 2 characters;
otherwise the indices in `[blk.1, blk.2)` whose field data starts with
`"  " 0x1F "0" + tag` and whose characters 7-8 match the pattern. -/
def MarcRecord.findFieldsInLocalBlock (r : MarcRecord) (tag : String)
    (indicators : List Char) (blk : Nat × Nat) : Option (List Nat) :=
  if indicators.length ≠ 2 then none
  else
    some ((List.range' blk.1 (blk.2 - blk.1)).filter (fun i =>
      let fd := r.getFieldData i
      ([' ', ' ', '\x1F', '0'] ++ tag.data).isPrefixOf fd &&
        IndicatorsMatch indicators ((fd.drop 7).take 2)))

/-- `MarcRecord::combine` (MarcRecord.cc:314-324): append the other
record's raw data and all of its directory entries except the first, each
offset shifted by this record's raw-data length before the append. -/
def MarcRecord.combine (r other : MarcRecord) : MarcRecord :=
  let offset := r.rawData.length
  { r with
    rawData := r.rawData ++ other.rawData,
    directoryEntries := r.directoryEntries ++
      other.directoryEntries.tail.map
        (fun e => ⟨e.tag, e.fieldLength, e.fieldOffset + offset⟩) }

/-- `MergeControlFields` (merge_print_and_online.cc:238-249): for tag
"005" the merged contents are `std::max` of the two contents (byte-wise
lexicographic), otherwise the first contents; returns the field as a
(tag, contents) pair. -/
def MergeControlFields (tag : String) (c1 c2 : String) : String × String :=
  (tag, if tag = "005" then max c1 c2 else c1)

/-- Modelled from the spec: the older `MarcUtil::Record` consumed by
fix_article_biblio_levels.cc (that record class is not under src/): a
leader plus a field list whose entries pair a 3-character tag with the
field's raw contents; `getFields()` yields the contents in order and
`getFieldIndex` is a first-match scan. -/
structure MURecord where
  leader : List Char
  fields : List (List Char × List Char)
  deriving DecidableEq, Repr, Inhabited

/-- An ASCII decimal digit, PCRE `\d`. -/
def isAsciiDigit (c : Char) : Bool := '0' ≤ c && c ≤ '9'

/-- PCRE `\d{8}[\dX]` matched against exactly nine characters. -/
def isValidControlNumber (l : List Char) : Bool :=
  l.length = 9 && (l.take 8).all isAsciiDigit &&
    (isAsciiDigit (l.getD 8 '\x00') || l.getD 8 '\x00' = 'X')

/-- Modelled from the spec: the PCRE matcher over the pattern
`\(.+\)(\d{8}[\dX])` of fix_article_biblio_levels.cc:92 (the RegexMatcher
wrapper is not under src/).  Leftmost match: the first position holding
`'('` from which the rest of the pattern completes; greedy `.+`: the last
viable `')'` at least two positions further on.  Returns capture group 1,
the eight digits plus check character following that `')'`. -/
def matchParentId (s : List Char) : Option (List Char) :=
  (List.range s.length).findSome? (fun i =>
    if s.getD i '\x00' = '(' then
      match ((List.range s.length).filter (fun j =>
          i + 2 ≤ j && s.getD j '\x00' = ')' &&
            isValidControlNumber ((s.drop (j + 1)).take 9))).getLast? with
      | some j => some ((s.drop (j + 1)).take 9)
      | none => none
    else none)

/-- `HasSerialParent` (fix_article_biblio_levels.cc:79-98): the first
field with the spec's leading 3-character tag is looked up; the first
subfield with the spec's 4th-character code is extracted; the result is
`true` exactly when the contents are non-empty, the regex matches, and
the captured parent id is one of the collected serial control numbers. -/
def HasSerialParent (serials : List (List Char)) (sfSpec : List Char)
    (rec : MURecord) : Bool :=
  let tag := sfSpec.take 3
  let code := sfSpec.getD 3 '\x00'
  match rec.fields.findIdx? (fun f => f.1 = tag) with
  | none => false
  | some idx =>
    let contents :=
      (Subfields.parse (rec.fields.getD idx default).2).getFirstSubfieldValue code
    if contents = [] then false
    else
      match matchParentId contents with
      | none => false
      | some pid => serials.contains pid

/-- Modelled from the spec: `StringUtil::Split` on a separator character
(StringUtil is not under src/). -/
def splitOnChar (sep : Char) : List Char → List (List Char)
  | [] => [[]]
  | c :: rest =>
    if c = sep then [] :: splitOnChar sep rest
    else
      match splitOnChar sep rest with
      | [] => [[c]]
      | g :: gs => (c :: g) :: gs

/-- `HasAtLeastOneSerialParent` (fix_article_biblio_levels.cc:101-110):
split the colon-separated subfield-spec list and test each entry. -/
def HasAtLeastOneSerialParent (serials : List (List Char)) (sfList : List Char)
    (rec : MURecord) : Bool :=
  (splitOnChar ':' sfList).any (fun sf => HasSerialParent serials sf rec)

/-- `PatchUpArticle` (fix_article_biblio_levels.cc:115-132) as a record
transformation (the write of every record to the output file is I/O and
not modelled): when leader byte 7 is `'a'` and some of the uplink
subfields 800w/810w/830w/773w has a serial parent, leader byte 7 is set
to `'b'`; otherwise the record passes through unchanged. -/
def PatchUpArticle (serials : List (List Char)) (rec : MURecord) : MURecord :=
  if rec.leader.getD 7 '\x00' ≠ 'a' then rec
  else if HasAtLeastOneSerialParent serials ("800w:810w:830w:773w".data) rec then
    { rec with leader := rec.leader.set 7 'b' }
  else rec

/-! ### General helper lemmas -/

/-- A data window lying inside `raw` reads the same after an append. -/
theorem extract_stable (raw ext : List Char) (off len : Nat)
    (h : off + len ≤ raw.length) :
    ((raw ++ ext).drop off).take (len - 1) = (raw.drop off).take (len - 1) := by
  rw [List.drop_append_eq_append_drop, List.take_append_eq_append_take]
  have h1 : off - raw.length = 0 := by omega
  have h2 : len - 1 - (raw.drop off).length = 0 := by
    simp only [List.length_drop]
    omega
  simp [h1, h2]
  omega

/-- Reading a window placed at the old end of the buffer yields the
appended value. -/
theorem extract_at_end (raw v rest : List Char) :
    ((raw ++ (v ++ rest)).drop raw.length).take v.length = v := by
  rw [List.drop_left, List.take_left]

/-- `findTagIdx` finds nothing exactly when no entry has the tag. -/
theorem findTagIdx_eq_none_iff (tag : String) (l : List DirectoryEntry) :
    findTagIdx tag l = none ↔ ∀ e ∈ l, e.tag ≠ tag := by
  induction l with
  | nil => simp [findTagIdx]
  | cons e rest ih =>
    by_cases h : e.tag = tag
    · simp [findTagIdx, h]
    · simp [findTagIdx, h, ih]

/-- `findTagIdx` returns the index of the first matching entry. -/
theorem findTagIdx_eq_some_of (tag : String) (l : List DirectoryEntry) (a : Nat)
    (ha : a < l.length) (htag : l[a].tag = tag)
    (hfirst : ∀ j, (hj : j < l.length) → j < a → l[j].tag ≠ tag) :
    findTagIdx tag l = some a := by
  induction l generalizing a with
  | nil => simp at ha
  | cons e rest ih =>
    match a with
    | 0 => simp_all [findTagIdx]
    | a + 1 =>
      have he : e.tag ≠ tag := by
        have := hfirst 0 (by simp) (by omega)
        simpa using this
      have hrest : findTagIdx tag rest = some a := by
        refine ih a (by simpa using ha) (by simpa using htag) ?_
        intro j hj hja
        have := hfirst (j + 1) (by simpa using hj) (by omega)
        simpa using this
      simp [findTagIdx, he, hrest]

/-- First-match facts for a successful `findTagIdx`. -/
theorem findTagIdx_spec (tag : String) (l : List DirectoryEntry) (a : Nat)
    (h : findTagIdx tag l = some a) :
    ∃ ha : a < l.length, l[a].tag = tag ∧
      ∀ j, (hj : j < l.length) → j < a → l[j].tag ≠ tag := by
  induction l generalizing a with
  | nil => simp [findTagIdx] at h
  | cons e rest ih =>
    by_cases he : e.tag = tag
    · simp [findTagIdx, he] at h
      subst h
      exact ⟨by simp, by simpa using he, by omega⟩
    · simp only [findTagIdx, he, if_false, Option.map_eq_some'] at h
      obtain ⟨a', ha', rfl⟩ := h
      obtain ⟨hlt, htag, hfirst⟩ := ih a' ha'
      refine ⟨by simpa using hlt, by simpa using htag, ?_⟩
      intro j hj hja
      match j with
      | 0 => simpa using he
      | j + 1 =>
        have := hfirst j (by simpa using hj) (by omega)
        simpa using this

/-- Unfolding `getFieldData` at a valid index. -/
theorem getFieldData_eq (r : MarcRecord) (i : Nat)
    (h : i < r.directoryEntries.length) :
    r.getFieldData i =
      (r.rawData.drop (r.directoryEntries[i].fieldOffset)).take
        (r.directoryEntries[i].fieldLength - 1) := by
  simp [MarcRecord.getFieldData, h]

/-- `getFieldData` at an out-of-range index. -/
theorem getFieldData_oob (r : MarcRecord) (i : Nat)
    (h : r.directoryEntries.length ≤ i) :
    r.getFieldData i = [] := by
  simp [MarcRecord.getFieldData, Nat.not_lt.mpr h]

/-! ### C10 -/

/-- C10: for tag "005", `MergeControlFields` returns the lexicographic
maximum of the two contents (one of the two inputs, at least as large as
either) and is commutative in the two content arguments; for every other
tag it returns the first contents unchanged. -/
theorem MergeControlFields_spec (tag c1 c2 : String) :
    (tag = "005" →
      ((MergeControlFields tag c1 c2).2 = c1 ∨ (MergeControlFields tag c1 c2).2 = c2)
      ∧ c1 ≤ (MergeControlFields tag c1 c2).2
      ∧ c2 ≤ (MergeControlFields tag c1 c2).2
      ∧ MergeControlFields tag c1 c2 = MergeControlFields tag c2 c1)
    ∧ (tag ≠ "005" → (MergeControlFields tag c1 c2).2 = c1) := by
  constructor
  · intro h
    subst h
    have h2 : (MergeControlFields "005" c1 c2).2 = max c1 c2 := by
      simp [MergeControlFields]
    refine ⟨?_, ?_, ?_, ?_⟩
    · rw [h2]; exact max_choice c1 c2
    · rw [h2]; exact le_max_left c1 c2
    · rw [h2]; exact le_max_right c1 c2
    · simp [MergeControlFields, max_comm]
  · intro h
    simp [MergeControlFields, h]

/-- Witness for C10 at concrete inputs. -/
theorem MergeControlFields_spec_witness :
    ((MergeControlFields "005" "20160101" "20170101").2 = "20160101"
      ∨ (MergeControlFields "005" "20160101" "20170101").2 = "20170101")
    ∧ (MergeControlFields "008" "x" "y").2 = "x" :=
  ⟨((MergeControlFields_spec "005" "20160101" "20170101").1 rfl).1,
   (MergeControlFields_spec "008" "x" "y").2 (by decide)⟩

/-! ### C9 -/

/-- The machine semantics of the out-of-range guard
`directory_entries_.cbegin() + index >= directory_entries_.cend()` of
MarcRecord.cc:43/56/70 on a 64-bit platform: the two addresses
`base + index * s` and `base + n * s` are computed modulo 2^64 and
compared as unsigned integers, where `base` is the address of the
directory's buffer, `s = sizeof(DirectoryEntry)` and `n` the number of
directory entries. -/
def iterGuardFires (base s n index : Nat) : Bool :=
  decide ((base + index * s) % 2 ^ 64 ≥ (base + n * s) % 2 ^ 64)

/-- C9 as traced on the machine: on every 64-bit execution (nonzero entry
size, buffer address at least one entry size, buffer end below the
address-space top), the index `FIELD_NOT_FOUND` is out of range for the
directory, yet the source's out-of-range guard does NOT fire there — the
address arithmetic `cbegin() + FIELD_NOT_FOUND` wraps to one entry below
`cbegin()`, so the accessors fall through to the wild read
`directory_entries_[FIELD_NOT_FOUND]` instead of returning empty. -/
theorem iterGuard_misses_sentinel (base s n : Nat) (hs : 1 ≤ s)
    (hbase : s ≤ base) (hfit : base + n * s < 2 ^ 64) :
    n ≤ FIELD_NOT_FOUND ∧ iterGuardFires base s n FIELD_NOT_FOUND = false := by
  have hn : n ≤ n * s := Nat.le_mul_of_pos_right n hs
  simp only [iterGuardFires, FIELD_NOT_FOUND, decide_eq_false_iff_not, not_le]
  constructor
  · omega
  · have h1 : (base + (2 ^ 64 - 1) * s) % 2 ^ 64 = base - s := by
      have hsplit : base + (2 ^ 64 - 1) * s = (base - s) + s * 2 ^ 64 := by
        have : (2 ^ 64 - 1) * s = s * 2 ^ 64 - s := by
          rw [Nat.sub_mul, Nat.mul_comm, Nat.one_mul]
        omega
      rw [hsplit, Nat.add_mul_mod_self_right]
      exact Nat.mod_eq_of_lt (by omega)
    have h2 : (base + n * s) % 2 ^ 64 = base + n * s := Nat.mod_eq_of_lt hfit
    rw [h1, h2]
    omega

/-- Witness for C9: a concrete realistic execution (buffer at address
2^20, 40-byte directory entries, one entry) on which the guard misses the
sentinel although the sentinel is out of range. -/
theorem iterGuard_misses_sentinel_witness :
    (1 : Nat) ≤ FIELD_NOT_FOUND
    ∧ iterGuardFires 1048576 40 1 FIELD_NOT_FOUND = false :=
  iterGuard_misses_sentinel 1048576 40 1 (by decide) (by decide) (by decide)

/-! ### C3 -/

/-- C3: on a well-formed record and a valid field index, `updateField`
appends the new value plus the 0x1E terminator to the end of `raw_data`
(so the buffer strictly grows and all previously stored bytes stay
unchanged), rewrites exactly that entry's offset (to the old buffer
length) and length (to the new value's length plus one) while keeping its
tag, leaves every other directory entry untouched, and afterwards
`getFieldData` returns the new value at the updated index and its old
result at every other index. -/
theorem updateField_spec (r : MarcRecord) (i : Nat) (v : List Char)
    (hi : i < r.directoryEntries.length) (hwf : r.WellFormed) :
    (r.updateField i v).rawData = r.rawData ++ v ++ ['\x1E']
    ∧ r.rawData.length < (r.updateField i v).rawData.length
    ∧ (r.updateField i v).rawData.take r.rawData.length = r.rawData
    ∧ (r.updateField i v).directoryEntries.length = r.directoryEntries.length
    ∧ ((r.updateField i v).directoryEntries.getD i default).tag
        = (r.directoryEntries.getD i default).tag
    ∧ ((r.updateField i v).directoryEntries.getD i default).fieldOffset
        = r.rawData.length
    ∧ ((r.updateField i v).directoryEntries.getD i default).fieldLength
        = v.length + 1
    ∧ (∀ j, j ≠ i →
        (r.updateField i v).directoryEntries.getD j default
          = r.directoryEntries.getD j default)
    ∧ (r.updateField i v).getFieldData i = v
    ∧ (∀ j, j ≠ i → (r.updateField i v).getFieldData j = r.getFieldData j) := by
  have hlen : (r.updateField i v).directoryEntries.length
      = r.directoryEntries.length := by
    simp [MarcRecord.updateField]
  have hset : (r.updateField i v).directoryEntries
      = r.directoryEntries.set i
        ⟨(r.directoryEntries.getD i default).tag, v.length + 1, r.rawData.length⟩ := by
    simp [MarcRecord.updateField]
  have hraw : (r.updateField i v).rawData = r.rawData ++ v ++ ['\x1E'] := by
    simp [MarcRecord.updateField]
  have hgetI : (r.updateField i v).directoryEntries.getD i default
      = ⟨(r.directoryEntries.getD i default).tag, v.length + 1, r.rawData.length⟩ := by
    rw [hset, List.getD_eq_getElem _ _ (by simpa using hi)]
    exact List.getElem_set_self (by simpa using hi)
  have hgetJ : ∀ j, j ≠ i →
      (r.updateField i v).directoryEntries.getD j default
        = r.directoryEntries.getD j default := by
    intro j hj
    by_cases hjl : j < r.directoryEntries.length
    · rw [hset, List.getD_eq_getElem _ _ (by simpa using hjl),
        List.getD_eq_getElem _ _ hjl]
      exact List.getElem_set_ne (Ne.symm hj) _
    · rw [List.getD_eq_default _ _ (by rw [hlen]; omega),
        List.getD_eq_default _ _ (by omega)]
  refine ⟨hraw, ?_, ?_, hlen, by rw [hgetI], by rw [hgetI], by rw [hgetI], hgetJ, ?_, ?_⟩
  · rw [hraw]
    simp
  · rw [hraw, List.append_assoc, List.take_left]
  · have hi' : i < (r.updateField i v).directoryEntries.length := by omega
    rw [getFieldData_eq _ _ hi', ← List.getD_eq_getElem _ default hi', hgetI, hraw]
    simp only [List.append_assoc]
    simp
  · intro j hj
    by_cases hjl : j < r.directoryEntries.length
    · have hjl' : j < (r.updateField i v).directoryEntries.length := by omega
      rw [getFieldData_eq _ _ hjl', getFieldData_eq _ _ hjl,
        ← List.getD_eq_getElem _ default hjl', ← List.getD_eq_getElem _ default hjl,
        hgetJ j hj, hraw]
      have hmem : r.directoryEntries.getD j default ∈ r.directoryEntries := by
        rw [List.getD_eq_getElem _ default hjl]
        exact List.getElem_mem hjl
      have hwin := hwf _ hmem
      rw [List.append_assoc]
      exact extract_stable r.rawData (v ++ ['\x1E']) _ _ hwin
    · rw [getFieldData_oob _ _ (by omega), getFieldData_oob _ _ (by omega)]

/-- Concrete record for the C3 witness: two fields "100" = "a",
"200" = "b". -/
def rec3c : MarcRecord :=
  ⟨[], [⟨"100", 2, 0⟩, ⟨"200", 2, 2⟩], ['a', '\x1E', 'b', '\x1E']⟩

/-- Witness for C3: updating field 0 of `rec3c` with "zz". -/
theorem updateField_spec_witness :
    (rec3c.updateField 0 ['z', 'z']).getFieldData 0 = ['z', 'z']
    ∧ (rec3c.updateField 0 ['z', 'z']).getFieldData 1 = rec3c.getFieldData 1
    ∧ (rec3c.updateField 0 ['z', 'z']).rawData.take rec3c.rawData.length
        = rec3c.rawData :=
  ⟨(updateField_spec rec3c 0 ['z', 'z'] (by decide) (by decide)).2.2.2.2.2.2.2.2.1,
   (updateField_spec rec3c 0 ['z', 'z'] (by decide) (by decide)).2.2.2.2.2.2.2.2.2 1
     (by decide),
   (updateField_spec rec3c 0 ['z', 'z'] (by decide) (by decide)).2.2.1⟩

/-! ### C6 -/

/-- C6: for records `r` and `s` where `s` has at least one field and its
first field is the "001" control-number field, `r.combine s` appends to
`r` every field of `s` except the first, in order, each appended entry's
offset increased by the length of `r`'s raw data before the append, and
`getFieldData` on the combined record returns for each appended entry
exactly the bytes `getFieldData` returned on `s` for the corresponding
field. -/
theorem combine_spec (r s : MarcRecord)
    (_hs : s.directoryEntries ≠ [])
    (_h001 : (s.directoryEntries.headD default).tag = "001") :
    (r.combine s).directoryEntries.length
        = r.directoryEntries.length + (s.directoryEntries.length - 1)
    ∧ (∀ j, j < r.directoryEntries.length →
        (r.combine s).directoryEntries.getD j default
          = r.directoryEntries.getD j default)
    ∧ (∀ k, k + 1 < s.directoryEntries.length →
        ((r.combine s).directoryEntries.getD (r.directoryEntries.length + k)
            default).tag
          = (s.directoryEntries.getD (k + 1) default).tag
        ∧ ((r.combine s).directoryEntries.getD (r.directoryEntries.length + k)
            default).fieldLength
          = (s.directoryEntries.getD (k + 1) default).fieldLength
        ∧ ((r.combine s).directoryEntries.getD (r.directoryEntries.length + k)
            default).fieldOffset
          = (s.directoryEntries.getD (k + 1) default).fieldOffset
            + r.rawData.length
        ∧ (r.combine s).getFieldData (r.directoryEntries.length + k)
          = s.getFieldData (k + 1)) := by
  have htail : s.directoryEntries.tail.length = s.directoryEntries.length - 1 := by
    simp
  have hces : (r.combine s).directoryEntries
      = r.directoryEntries ++ s.directoryEntries.tail.map
          (fun e => ⟨e.tag, e.fieldLength, e.fieldOffset + r.rawData.length⟩) := by
    simp [MarcRecord.combine]
  have hlen : (r.combine s).directoryEntries.length
      = r.directoryEntries.length + (s.directoryEntries.length - 1) := by
    rw [hces]
    simp
  have hraw : (r.combine s).rawData = r.rawData ++ s.rawData := by
    simp [MarcRecord.combine]
  have hkth : ∀ k, k + 1 < s.directoryEntries.length →
      (r.combine s).directoryEntries.getD (r.directoryEntries.length + k) default
        = (fun e : DirectoryEntry =>
            (⟨e.tag, e.fieldLength, e.fieldOffset + r.rawData.length⟩ : DirectoryEntry))
          (s.directoryEntries.getD (k + 1) default) := by
    intro k hk
    rw [List.getD_eq_getElem?_getD, List.getD_eq_getElem?_getD, hces,
      List.getElem?_append_right (by omega), List.getElem?_map,
      show r.directoryEntries.length + k - r.directoryEntries.length = k by omega,
      ← List.drop_one, List.getElem?_drop,
      show 1 + k = k + 1 by omega,
      List.getElem?_eq_getElem (by omega)]
    simp
  refine ⟨hlen, ?_, ?_⟩
  · intro j hj
    rw [List.getD_eq_getElem _ default (by omega), List.getD_eq_getElem _ default hj]
    rw [hces] at *
    exact List.getElem_append_left hj
  · intro k hk
    have hentry := hkth k hk
    refine ⟨by rw [hentry], by rw [hentry], by rw [hentry], ?_⟩
    have hidx : r.directoryEntries.length + k < (r.combine s).directoryEntries.length := by
      omega
    rw [getFieldData_eq _ _ hidx, getFieldData_eq _ _ (by omega),
      ← List.getD_eq_getElem _ default hidx, ← List.getD_eq_getElem _ default (by omega : k + 1 < s.directoryEntries.length),
      hentry, hraw]
    have hdrop : (r.rawData ++ s.rawData).drop
        ((s.directoryEntries.getD (k + 1) default).fieldOffset + r.rawData.length)
        = s.rawData.drop ((s.directoryEntries.getD (k + 1) default).fieldOffset) := by
      rw [Nat.add_comm]
      exact List.drop_append _
    rw [hdrop]

/-- Concrete records for the C6 witness. -/
def rec6a : MarcRecord := ⟨[], [⟨"001", 2, 0⟩], ['p', '\x1E']⟩

/-- Second concrete record for the C6 witness: "001" = "q", "245" = "t". -/
def rec6b : MarcRecord :=
  ⟨[], [⟨"001", 2, 0⟩, ⟨"245", 2, 2⟩], ['q', '\x1E', 't', '\x1E']⟩

/-- Witness for C6: combining `rec6a` with `rec6b` transplants the "245"
field with identical bytes. -/
theorem combine_spec_witness :
    (rec6a.combine rec6b).getFieldData 1 = rec6b.getFieldData 1 :=
  ((combine_spec rec6a rec6b (by decide) (by decide)).2.2 0 (by decide)).2.2.2

/-! ### C1 -/

/-- Concrete record for the C1 counterexample: one existing "100" field
holding "old". -/
def rec1C : MarcRecord :=
  ⟨[], [⟨"100", 4, 0⟩], ['o', 'l', 'd', '\x1E']⟩

/-- C1 counterexample: on a record that already contains a "100" field
with value "old", inserting a "100" field with value "new" and then
looking the tag up with `getFieldIndex` yields the index of the OLD
field, whose `getFieldData` is "old", not the inserted "new":
`insertField` places the new entry after the existing same-tag run while
`getFieldIndex` returns the first match. -/
theorem insertField_existing_tag_counterexample :
    (rec1C.directoryEntries.getD 0 default).tag = "100"
    ∧ rec1C.getFieldData 0 = ['o', 'l', 'd']
    ∧ (rec1C.insertField "100" ['n', 'e', 'w']).1.getFieldData
        ((rec1C.insertField "100" ['n', 'e', 'w']).1.getFieldIndex "100")
      = ['o', 'l', 'd']
    ∧ (['o', 'l', 'd'] : List Char) ≠ ['n', 'e', 'w'] := by
  refine ⟨by decide, by decide, ?_, by decide⟩
  decide

/-- C1 amended: provided the record contains no field with the given tag
before the insertion, `insertField(tag, value)` followed by
`getFieldIndex(tag)` returns an index whose `getFieldData` equals the
inserted value (and that index is the one `insertField` returned). -/
theorem insertField_fresh_spec (r : MarcRecord) (tag : String) (v : List Char)
    (hfresh : ∀ e ∈ r.directoryEntries, e.tag ≠ tag) :
    (r.insertField tag v).1.getFieldIndex tag = (r.insertField tag v).2
    ∧ (r.insertField tag v).1.getFieldData
        ((r.insertField tag v).1.getFieldIndex tag) = v := by
  set p := (r.directoryEntries.takeWhile
    (fun e => tagLe e.tag tag)).length with hp
  have hple : p ≤ r.directoryEntries.length := by
    rw [hp]
    exact ( List.takeWhile_prefix _).sublist.length_le
  have hents : (r.insertField tag v).1.directoryEntries
      = r.directoryEntries.take p
        ++ (⟨tag, v.length + 1, r.rawData.length⟩ : DirectoryEntry)
          :: r.directoryEntries.drop p := by
    simp [MarcRecord.insertField, hp]
  have hraw : (r.insertField tag v).1.rawData = r.rawData ++ v ++ ['\x1E'] := by
    simp [MarcRecord.insertField]
  have hsnd : (r.insertField tag v).2 = p := by
    simp [MarcRecord.insertField, hp]
  have htake : (r.directoryEntries.take p).length = p := by
    simp [Nat.min_eq_left hple]
  have hfind : findTagIdx tag (r.insertField tag v).1.directoryEntries = some p := by
    rw [hents]
    refine findTagIdx_eq_some_of tag _ p (by simp [htake]) ?_ ?_
    · rw [List.getElem_append_right (by omega)]
      simp [htake]
    · intro j hj hjp
      rw [List.getElem_append_left (by omega)]
      exact hfresh _ (List.mem_of_mem_take (List.getElem_mem _))
  have hidx : (r.insertField tag v).1.getFieldIndex tag = p := by
    simp [MarcRecord.getFieldIndex, hfind]
  refine ⟨by rw [hidx, hsnd], ?_⟩
  rw [hidx]
  have hplen : p < (r.insertField tag v).1.directoryEntries.length := by
    rw [hents]
    simp [htake]
  rw [getFieldData_eq _ _ hplen]
  have hgetp : (r.insertField tag v).1.directoryEntries[p]
      = (⟨tag, v.length + 1, r.rawData.length⟩ : DirectoryEntry) := by
    rw [List.getElem_eq_iff, hents,
      List.getElem?_append_right (by omega)]
    simp [htake]
  rw [hgetp, hraw]
  simp only [List.append_assoc]
  simp

/-- Concrete record for the C1 amended witness: a single "001" field. -/
def rec1W : MarcRecord := ⟨[], [⟨"001", 2, 0⟩], ['x', '\x1E']⟩

/-- Witness for C1 amended: inserting a fresh "245" field into `rec1W`. -/
theorem insertField_fresh_spec_witness :
    (rec1W.insertField "245" ['t']).1.getFieldData
      ((rec1W.insertField "245" ['t']).1.getFieldIndex "245") = ['t'] :=
  (insertField_fresh_spec rec1W "245" ['t'] (by decide)).2

/-! ### C2 -/

/-- When no field in `[e, n)` is a local-block header, the scan closes the
single open block at `n`. -/
theorem lokScan_no_header (r : MarcRecord) (s e n : Nat) (he : e ≤ n)
    (h : ∀ j, e ≤ j → j < n → ¬ isLokHeader (r.getFieldData j) = true) :
    lokScan r s e n = [(s, n)] := by
  induction s, e, n using lokScan.induct r with
  | case1 s e n hen hhead ih =>
    exact absurd hhead (h e (Nat.le_refl e) hen)
  | case2 s e n hen hhead ih =>
    rw [lokScan, if_pos hen, if_neg hhead]
    exact ih (by omega) (fun j hj hjn => h j (by omega) hjn)
  | case3 s e n hen =>
    rw [lokScan, if_neg hen]
    have : e = n := by omega
    rw [this]

/-- When exactly one field in `[e, n)` is a local-block header, at `m`,
the scan produces the two blocks `[s, m)` and `[m, n)`. -/
theorem lokScan_one_header (r : MarcRecord) (s e n m : Nat) (hem : e ≤ m)
    (hmn : m < n)
    (h : ∀ j, e ≤ j → j < n → (isLokHeader (r.getFieldData j) = true ↔ j = m)) :
    lokScan r s e n = [(s, m), (m, n)] := by
  induction s, e, n using lokScan.induct r with
  | case1 s e n hen hhead ih =>
    have hm : e = m := (h e (Nat.le_refl e) hen).mp hhead
    subst hm
    rw [lokScan, if_pos hen, if_pos hhead]
    have htail : lokScan r e (e + 1) n = [(e, n)] := by
      refine lokScan_no_header r e (e + 1) n (by omega) ?_
      intro j hj hjn hhd
      have := (h j (by omega) hjn).mp hhd
      omega
    rw [htail]
  | case2 s e n hen hhead ih =>
    have hem' : e ≠ m := by
      intro hc
      exact hhead ((h e (Nat.le_refl e) hen).mpr hc)
    rw [lokScan, if_pos hen, if_neg hhead]
    exact ih (by omega) hmn (fun j hj hjn => h j (by omega) hjn)
  | case3 s e n hen =>
    omega

/-- C2: `findAllLocalDataBlocks` on a record with no "LOK" field returns
zero blocks; on a record whose LOK fields form two local blocks — the
first LOK field is a "000"-marked block header and exactly one later
field is another — it returns exactly two `[start,end)` ranges that are
contiguous (the first range's end is the second's start), pairwise
disjoint, and together cover all LOK entries. -/
theorem findAllLocalDataBlocks_spec (r : MarcRecord)
    (hn : r.directoryEntries.length ≤ FIELD_NOT_FOUND) :
    ((∀ e ∈ r.directoryEntries, e.tag ≠ "LOK") → r.findAllLocalDataBlocks = [])
    ∧ (∀ a m, a < r.directoryEntries.length →
        (r.directoryEntries.getD a default).tag = "LOK" →
        (∀ j, j < r.directoryEntries.length →
          (j < a → (r.directoryEntries.getD j default).tag ≠ "LOK")) →
        isLokHeader (r.getFieldData a) = true →
        a < m → m < r.directoryEntries.length →
        (∀ j, j < r.directoryEntries.length →
          (a < j → (isLokHeader (r.getFieldData j) = true ↔ j = m))) →
        r.findAllLocalDataBlocks = [(a, m), (m, r.directoryEntries.length)]
        ∧ (∀ j, j < r.directoryEntries.length →
            (r.directoryEntries.getD j default).tag = "LOK" → a ≤ j)) := by
  constructor
  · intro hno
    have hf : findTagIdx "LOK" r.directoryEntries = none :=
      (findTagIdx_eq_none_iff "LOK" r.directoryEntries).mpr hno
    simp [MarcRecord.findAllLocalDataBlocks, MarcRecord.getFieldIndex, hf,
      FIELD_NOT_FOUND]
  · intro a m ha hatag hfirst _hahead ham hmn hone
    have hf : findTagIdx "LOK" r.directoryEntries = some a := by
      refine findTagIdx_eq_some_of "LOK" r.directoryEntries a ha ?_ ?_
      · rw [← List.getD_eq_getElem _ default ha]
        exact hatag
      · intro j hj hja
        rw [← List.getD_eq_getElem _ default hj]
        exact hfirst j hj hja
    have hidx : r.getFieldIndex "LOK" = a := by
      simp [MarcRecord.getFieldIndex, hf]
    have hane : a ≠ FIELD_NOT_FOUND := by omega
    constructor
    · rw [MarcRecord.findAllLocalDataBlocks]
      simp only [hidx, if_neg hane]
      exact lokScan_one_header r a (a + 1) r.directoryEntries.length m (by omega)
        hmn (fun j hj hjn => hone j hjn (by omega))
    · intro j hj htag
      by_contra hc
      exact hfirst j hj (by omega) htag

/-- Concrete record for the C2 witness: one non-LOK field followed by two
local blocks of two LOK fields each. -/
def rec2W : MarcRecord :=
  ⟨[],
   [⟨"001", 2, 0⟩, ⟨"LOK", 8, 2⟩, ⟨"LOK", 2, 10⟩, ⟨"LOK", 8, 12⟩, ⟨"LOK", 2, 20⟩],
   ("x\x1E" ++ "  \x1F0000\x1E" ++ "a\x1E" ++ "  \x1F0000\x1E" ++ "b\x1E").data⟩

/-- Witness for C2: on `rec2W` the scan returns the two blocks
`[1, 3)` and `[3, 5)`. -/
theorem findAllLocalDataBlocks_spec_witness :
    rec2W.findAllLocalDataBlocks = [(1, 3), (3, 5)]
    ∧ (∀ j, j < rec2W.directoryEntries.length →
        (rec2W.directoryEntries.getD j default).tag = "LOK" → 1 ≤ j) :=
  (findAllLocalDataBlocks_spec rec2W (by decide)).2 1 3 (by decide)
    (by decide) (by decide) (by decide) (by decide) (by decide)
    (by decide)

/-! ### C7 -/

/-- Reading one of the first two positions of a two-character slice is
reading the underlying list. -/
theorem getD_take_two (l : List Char) (i : Nat) (hi : i < 2) (d : Char) :
    (l.take 2).getD i d = l.getD i d := by
  rw [List.getD_eq_getElem?_getD, List.getD_eq_getElem?_getD, List.getElem?_take]
  simp [hi]

/-- C7: `findFieldsInLocalBlock` raises a fatal error (modelled as `none`)
if and only if the indicator pattern is not exactly 2 characters long;
otherwise it returns exactly the indices in `[blk.1, blk.2)` whose field
content starts with `"  " 0x1F "0"` followed by the tag, and whose two
characters at content offsets 7-8 match the pattern, `'?'` matching any
character. -/
theorem findFieldsInLocalBlock_spec (r : MarcRecord) (tag : String)
    (pat : List Char) (blk : Nat × Nat) :
    (r.findFieldsInLocalBlock tag pat blk = none ↔ pat.length ≠ 2)
    ∧ (∀ l, r.findFieldsInLocalBlock tag pat blk = some l →
        ∀ i, (i ∈ l ↔
          (blk.1 ≤ i ∧ i < blk.2
           ∧ ([' ', ' ', '\x1F', '0'] ++ tag.data) <+: r.getFieldData i
           ∧ (pat.getD 0 '\x00' = '?'
              ∨ pat.getD 0 '\x00' = ((r.getFieldData i).drop 7).getD 0 '\x00')
           ∧ (pat.getD 1 '\x00' = '?'
              ∨ pat.getD 1 '\x00' = ((r.getFieldData i).drop 7).getD 1 '\x00')))) := by
  constructor
  · unfold MarcRecord.findFieldsInLocalBlock
    by_cases h : pat.length = 2 <;> simp [h]
  · intro l hl i
    unfold MarcRecord.findFieldsInLocalBlock at hl
    by_cases h : pat.length = 2
    · rw [if_neg (by omega)] at hl
      have hl' : ((List.range' blk.1 (blk.2 - blk.1)).filter (fun i =>
          let fd := r.getFieldData i
          ([' ', ' ', '\x1F', '0'] ++ tag.data).isPrefixOf fd &&
            IndicatorsMatch pat ((fd.drop 7).take 2))) = l := by
        injection hl
      rw [← hl', List.mem_filter, List.mem_range'_1]
      simp only [IndicatorsMatch, Bool.and_eq_true, Bool.or_eq_true,
        decide_eq_true_eq]
      rw [getD_take_two _ 0 (by omega), getD_take_two _ 1 (by omega)]
      rw [ List.isPrefixOf_iff_prefix]
      constructor
      · rintro ⟨⟨h1, h2⟩, h3, h4, h5⟩
        exact ⟨h1, by omega, h3, h4, h5⟩
      · rintro ⟨h1, h2, h3, h4, h5⟩
        exact ⟨⟨h1, by omega⟩, h3, h4, h5⟩
    · rw [if_pos h] at hl
      cases hl

/-- Concrete record for the C7 witness: a local-block header followed by
two "852" fields with indicators "14" and "24". -/
def rec7W : MarcRecord :=
  ⟨[],
   [⟨"LOK", 8, 0⟩, ⟨"LOK", 13, 8⟩, ⟨"LOK", 13, 21⟩],
   ("  \x1F0000\x1E" ++ "  \x1F085214\x1Fay\x1E" ++ "  \x1F085224\x1Faz\x1E").data⟩

/-- Witness for C7: index 1 of `rec7W` satisfies the selection property
for tag "852" and pattern "?4" on the block `[0, 3)`. -/
theorem findFieldsInLocalBlock_spec_witness :
    (0 : Nat) ≤ 1 ∧ (1 : Nat) < 3
    ∧ ([' ', ' ', '\x1F', '0'] ++ "852".data) <+: rec7W.getFieldData 1
    ∧ ((['?', '4'] : List Char).getD 0 '\x00' = '?'
       ∨ (['?', '4'] : List Char).getD 0 '\x00'
         = ((rec7W.getFieldData 1).drop 7).getD 0 '\x00')
    ∧ ((['?', '4'] : List Char).getD 1 '\x00' = '?'
       ∨ (['?', '4'] : List Char).getD 1 '\x00'
         = ((rec7W.getFieldData 1).drop 7).getD 1 '\x00') :=
  (((findFieldsInLocalBlock_spec rec7W "852" ['?', '4'] (0, 3)).2 [1, 2]
    (by decide) 1).mp (by decide))

/-! ### C8 -/

/-- Concrete record for the C8 counterexample: leader byte 7 is 'a', a
"001" field and a "773" field whose first 'w' subfield is "(DE-576)123". -/
def rec8C : MURecord :=
  ⟨"xxxxxxxaxxxxxxxxxxxxxxxx".data,
   [("001".data, "12345".data), ("773".data, "  \x1Fw(DE-576)123".data)]⟩

/-- C8 counterexample: although "123" is in the collected serial set and
the record's first 773$w subfield is "(DE-576)123", `PatchUpArticle`
leaves leader byte 7 at 'a': the pattern `\(.+\)(\d{8}[\dX])` only
matches an 8-digit-plus-check-character control number after the closing
parenthesis, which "123" is not, so `HasSerialParent` never fires. -/
theorem patchUpArticle_counterexample :
    rec8C.leader.getD 7 '\x00' = 'a'
    ∧ (Subfields.parse (rec8C.fields.getD 1 default).2).getFirstSubfieldValue 'w'
        = "(DE-576)123".data
    ∧ "123".data ∈ ["123".data]
    ∧ (PatchUpArticle ["123".data] rec8C).leader.getD 7 '\x00' = 'a'
    ∧ ('a' : Char) ≠ 'b' := by
  refine ⟨by decide, by decide, by decide, ?_, by decide⟩
  decide

/-- C8 amended: for every record whose leader byte 7 is 'a' and whose
first "773" field has as its first 'w' subfield the uplink
"(DE-576)123456789" — a parent id of the 8-digits-plus-check form the
regex requires — where "123456789" is in the collected set of serial
control numbers, `PatchUpArticle` sets leader byte 7 to 'b'. -/
theorem patchUpArticle_amended (serials : List (List Char)) (rec : MURecord)
    (k : Nat)
    (hlead : rec.leader.getD 7 '\x00' = 'a')
    (hfind : rec.fields.findIdx? (fun f => f.1 = "773".data) = some k)
    (hsub : (Subfields.parse (rec.fields.getD k default).2).getFirstSubfieldValue 'w'
        = "(DE-576)123456789".data)
    (hmem : "123456789".data ∈ serials) :
    (PatchUpArticle serials rec).leader.getD 7 '\x00' = 'b' := by
  have h773 : HasSerialParent serials ("773w".data) rec = true := by
    rw [HasSerialParent]
    rw [show ("773w".data.take 3) = "773".data from by decide]
    rw [hfind]
    simp only
    rw [show ("773w".data.getD 3 '\x00') = 'w' from by decide]
    rw [hsub]
    rw [if_neg (by decide)]
    rw [show matchParentId ("(DE-576)123456789".data)
        = some ("123456789".data) from by decide]
    simpa [List.elem_iff] using hmem
  have hany : HasAtLeastOneSerialParent serials ("800w:810w:830w:773w".data) rec
      = true := by
    rw [HasAtLeastOneSerialParent]
    refine List.any_eq_true.mpr ⟨"773w".data, ?_, h773⟩
    rw [show splitOnChar ':' ("800w:810w:830w:773w".data)
        = ["800w".data, "810w".data, "830w".data, "773w".data] from by decide]
    decide
  have hlen : 7 < rec.leader.length := by
    by_contra hc
    rw [List.getD_eq_default _ _ (by omega)] at hlead
    exact absurd hlead (by decide)
  rw [PatchUpArticle, if_neg (by rw [hlead]; simp), if_pos (by rw [hany])]
  rw [List.getD_eq_getElem _ _ (by simpa using hlen)]
  exact List.getElem_set_self (by simpa using hlen)

/-- Concrete record for the C8 amended witness. -/
def rec8W : MURecord :=
  ⟨"xxxxxxxaxxxxxxxxxxxxxxxx".data,
   [("001".data, "12345".data), ("773".data, "  \x1Fw(DE-576)123456789".data)]⟩

/-- Witness for C8 amended: `rec8W` gets leader byte 7 patched to 'b'. -/
theorem patchUpArticle_amended_witness :
    (PatchUpArticle ["123456789".data] rec8W).leader.getD 7 '\x00' = 'b' :=
  patchUpArticle_amended ["123456789".data] rec8W 1 (by decide) (by decide)
    (by decide) (by decide)

/-! ### C5 -/

/-- `charListLe` is antisymmetric. -/
theorem charListLe_antisymm : ∀ a b : List Char,
    charListLe a b = true → charListLe b a = true → a = b
  | [], [], _, _ => rfl
  | [], _ :: _, _, h2 => by simp [charListLe] at h2
  | _ :: _, [], h1, _ => by simp [charListLe] at h1
  | a :: as, b :: bs, h1, h2 => by
    by_cases hab : a < b
    · rw [charListLe, if_neg (lt_asymm hab), if_pos hab] at h2
      cases h2
    · by_cases hba : b < a
      · rw [charListLe, if_neg hab, if_pos hba] at h1
        cases h1
      · have heq : a = b := le_antisymm (not_lt.mp hba) (not_lt.mp hab)
        subst heq
        rw [charListLe, if_neg hab, if_neg hab] at h1 h2
        rw [charListLe_antisymm as bs h1 h2]

/-- `tagLe` is antisymmetric. -/
theorem tagLe_antisymm (a b : String) (h1 : tagLe a b = true)
    (h2 : tagLe b a = true) : a = b :=
  String.ext (charListLe_antisymm a.data b.data h1 h2)

/-- Every index collected by the run loop lies at or after the start. -/
theorem mem_collectRunGo_ge (entries : List DirectoryEntry) (tag : String) :
    ∀ fuel i j, j ∈ collectRunGo entries tag fuel i → i ≤ j := by
  intro fuel
  induction fuel with
  | zero => simp [collectRunGo]
  | succ fuel ih =>
    intro i j hj
    rw [collectRunGo] at hj
    by_cases h : i < entries.length
    · rw [dif_pos h] at hj
      by_cases ht : (entries.get ⟨i, h⟩).tag = tag
      · rw [if_pos ht] at hj
        rcases List.mem_cons.mp hj with rfl | hj
        · exact Nat.le_refl j
        · have := ih (i + 1) j hj
          omega
      · rw [if_neg ht] at hj
        cases hj
    · rw [dif_neg h] at hj
      cases hj

/-- Membership in the run loop, given enough fuel: the collected indices
are exactly the indices reachable from `i` through a consecutive run of
entries with the sought tag. -/
theorem mem_collectRunGo (entries : List DirectoryEntry) (tag : String) :
    ∀ fuel i, entries.length - i ≤ fuel →
      ∀ j, (j ∈ collectRunGo entries tag fuel i ↔
        (i ≤ j ∧ j < entries.length ∧
          ∀ k, i ≤ k → k ≤ j → (entries.getD k default).tag = tag)) := by
  intro fuel
  induction fuel with
  | zero =>
    intro i hfi j
    simp only [collectRunGo, List.not_mem_nil, false_iff]
    rintro ⟨h1, h2, _⟩
    omega
  | succ fuel ih =>
    intro i hfi j
    rw [collectRunGo]
    by_cases h : i < entries.length
    · rw [dif_pos h]
      by_cases ht : (entries.get ⟨i, h⟩).tag = tag
      · rw [if_pos ht, List.mem_cons, ih (i + 1) (by omega) j]
        constructor
        · rintro (rfl | ⟨h1, h2, h3⟩)
          · refine ⟨Nat.le_refl j, h, ?_⟩
            intro k hk1 hk2
            have : k = j := by omega
            subst this
            rw [List.getD_eq_getElem _ default h]
            simpa using ht
          · refine ⟨by omega, h2, ?_⟩
            intro k hk1 hk2
            by_cases hki : k = i
            · subst hki
              rw [List.getD_eq_getElem _ default h]
              simpa using ht
            · exact h3 k (by omega) hk2
        · rintro ⟨h1, h2, h3⟩
          by_cases hji : j = i
          · exact Or.inl hji
          · refine Or.inr ⟨by omega, h2, ?_⟩
            intro k hk1 hk2
            exact h3 k (by omega) hk2
      · rw [if_neg ht]
        simp only [List.not_mem_nil, false_iff]
        rintro ⟨h1, h2, h3⟩
        refine ht ?_
        have := h3 i (Nat.le_refl i) h1
        rw [List.getD_eq_getElem _ default h] at this
        simpa using this
    · rw [dif_neg h]
      simp only [List.not_mem_nil, false_iff]
      rintro ⟨h1, h2, _⟩
      omega

/-- The run loop returns strictly ascending indices. -/
theorem collectRunGo_sorted (entries : List DirectoryEntry) (tag : String) :
    ∀ fuel i, List.Sorted (· < ·) (collectRunGo entries tag fuel i) := by
  intro fuel
  induction fuel with
  | zero => simp [collectRunGo]
  | succ fuel ih =>
    intro i
    rw [collectRunGo]
    by_cases h : i < entries.length
    · rw [dif_pos h]
      by_cases ht : (entries.get ⟨i, h⟩).tag = tag
      · rw [if_pos ht]
        refine List.sorted_cons.mpr ⟨?_, ih (i + 1)⟩
        intro b hb
        have := mem_collectRunGo_ge entries tag fuel (i + 1) b hb
        omega
      · rw [if_neg ht]
        simp
    · rw [dif_neg h]
      simp

/-- Concrete record for the C5 counterexample: tags "100", "200", "100"
— the third entry repeats the first tag outside the initial run. -/
def rec5C : MarcRecord :=
  ⟨[], [⟨"100", 2, 0⟩, ⟨"200", 2, 2⟩, ⟨"100", 2, 4⟩],
   ['a', '\x1E', 'b', '\x1E', 'c', '\x1E']⟩

/-- C5 counterexample: on a record whose "100" entries lie in two
non-adjacent runs, `getFieldIndices("100")` returns only the first run
`[0]`, omitting index 2 although that entry's tag is also "100" — the
scan stops at the first non-matching tag instead of scanning the whole
directory. -/
theorem getFieldIndices_counterexample :
    rec5C.getFieldIndices "100" = [0]
    ∧ (rec5C.directoryEntries.getD 2 default).tag = "100"
    ∧ 2 ∉ rec5C.getFieldIndices "100" := by
  refine ⟨by decide, by decide, by decide⟩

/-- C5 amended: `getFieldIndices(tag)` returns, in strictly ascending
order, the indices of the contiguous run of entries with the given tag
that starts at the first match; when the directory entries are tag-sorted
(the record invariant assumed by this operation) these are exactly the
indices of all entries with that tag. -/
theorem getFieldIndices_run_spec (r : MarcRecord) (tag : String)
    (hn : r.directoryEntries.length ≤ FIELD_NOT_FOUND)
    (hsorted : List.Pairwise
      (fun x y : DirectoryEntry => tagLe x.tag y.tag = true)
      r.directoryEntries) :
    List.Sorted (· < ·) (r.getFieldIndices tag)
    ∧ ∀ j, (j ∈ r.getFieldIndices tag ↔
        (j < r.directoryEntries.length
         ∧ (r.directoryEntries.getD j default).tag = tag)) := by
  have hpair : ∀ i j, (hi : i < r.directoryEntries.length) →
      (hj : j < r.directoryEntries.length) → i ≤ j →
      tagLe (r.directoryEntries[i].tag) (r.directoryEntries[j].tag) = true
      ∨ i = j := by
    intro i j hi hj hij
    by_cases h : i = j
    · exact Or.inr h
    · exact Or.inl (List.pairwise_iff_getElem.mp hsorted i j hi hj (by omega))
  refine ⟨collectRunGo_sorted _ _ _ _, ?_⟩
  intro j
  rw [MarcRecord.getFieldIndices, collectRun,
    mem_collectRunGo _ _ _ _ (Nat.le_refl _) j]
  cases hf : findTagIdx tag r.directoryEntries with
  | none =>
    have hidx : r.getFieldIndex tag = FIELD_NOT_FOUND := by
      simp [MarcRecord.getFieldIndex, hf]
    rw [hidx]
    constructor
    · rintro ⟨h1, h2, _⟩
      omega
    · rintro ⟨hjl, hjt⟩
      have hmem : r.directoryEntries.getD j default ∈ r.directoryEntries := by
        rw [List.getD_eq_getElem _ default hjl]
        exact List.getElem_mem hjl
      exact absurd hjt ((findTagIdx_eq_none_iff tag _).mp hf _ hmem)
  | some a =>
    have hidx : r.getFieldIndex tag = a := by
      simp [MarcRecord.getFieldIndex, hf]
    rw [hidx]
    obtain ⟨ha, hatag, hfirst⟩ := findTagIdx_spec tag _ a hf
    constructor
    · rintro ⟨h1, h2, h3⟩
      exact ⟨h2, h3 j h1 (Nat.le_refl j)⟩
    · rintro ⟨hjl, hjt⟩
      have haj : a ≤ j := by
        by_contra hc
        refine hfirst j hjl (by omega) ?_
        rw [← List.getD_eq_getElem _ default hjl]
        exact hjt
      refine ⟨haj, hjl, ?_⟩
      intro k hk1 hk2
      have hkl : k < r.directoryEntries.length := by omega
      rw [List.getD_eq_getElem _ default hkl]
      rcases hpair a k ha hkl hk1 with h1 | h1
      · rcases hpair k j hkl hjl hk2 with h2 | h2
        · rw [hatag] at h1
          rw [← List.getD_eq_getElem _ default hjl, hjt] at h2
          exact (tagLe_antisymm _ _ h2 h1).symm ▸ rfl
        · subst h2
          rw [← List.getD_eq_getElem _ default hjl]
          exact hjt
      · subst h1
        exact hatag

/-- Concrete tag-sorted record for the C5 amended witness: tags "100",
"100", "200". -/
def rec5W : MarcRecord :=
  ⟨[], [⟨"100", 2, 0⟩, ⟨"100", 2, 2⟩, ⟨"200", 2, 4⟩],
   ['a', '\x1E', 'b', '\x1E', 'c', '\x1E']⟩

/-- Witness for C5 amended: on the tag-sorted `rec5W`, membership of
index 1 in `getFieldIndices "100"` holds exactly as characterised. -/
theorem getFieldIndices_run_spec_witness :
    1 ∈ rec5W.getFieldIndices "100" ↔
      (1 < rec5W.directoryEntries.length
       ∧ (rec5W.directoryEntries.getD 1 default).tag = "100") :=
  (getFieldIndices_run_spec rec5W "100" (by decide) (by decide)).2 1

/-! ### C4 -/

/-- The first element past a `takeWhile` prefix fails the predicate. -/
theorem takeWhile_boundary {α : Type} (p : α → Bool) :
    ∀ l : List α, ∀ x, l[(l.takeWhile p).length]? = some x → p x = false := by
  intro l
  induction l with
  | nil => intro x hx; cases hx
  | cons c rest ih =>
    intro x hx
    by_cases hpc : p c = true
    · have htw : (c :: rest).takeWhile p = c :: rest.takeWhile p := by
        simp [List.takeWhile_cons, hpc]
      rw [htw, List.length_cons, List.getElem?_cons_succ] at hx
      exact ih x hx
    · have htw : (c :: rest).takeWhile p = [] := by
        simp [List.takeWhile_cons, hpc]
      rw [htw] at hx
      simp only [List.length_nil, List.getElem?_cons_zero, Option.some.injEq] at hx
      subst hx
      exact Bool.eq_false_iff.mpr hpc

/-- Helper predicate for C4: a block list whose ranges are ordered, each
block starting no earlier than `lo` and no later than its own end, each
subsequent block starting no earlier than the previous end. -/
def BlocksChain : Nat → List (Nat × Nat) → Prop
  | _, [] => True
  | lo, b :: bs => lo ≤ b.1 ∧ b.1 ≤ b.2 ∧ BlocksChain b.2 bs

/-- `BlocksChain` is antitone in the lower bound. -/
theorem blocksChain_mono : ∀ (bs : List (Nat × Nat)) (lo lo' : Nat),
    lo' ≤ lo → BlocksChain lo bs → BlocksChain lo' bs := by
  intro bs lo lo' hle h
  cases bs with
  | nil => trivial
  | cons b bs =>
    obtain ⟨h1, h2, h3⟩ := h
    exact ⟨by omega, h2, h3⟩

/-- Every block of a chain starts at or after the chain's lower bound. -/
theorem blocksChain_lo_le : ∀ (bs : List (Nat × Nat)) (lo : Nat)
    (b : Nat × Nat), BlocksChain lo bs → b ∈ bs → lo ≤ b.1 ∧ b.1 ≤ b.2 := by
  intro bs
  induction bs with
  | nil => intro lo b _ hb; cases hb
  | cons b' bs ih =>
    intro lo b hch hb
    obtain ⟨h1, h2, h3⟩ := hch
    rcases List.mem_cons.mp hb with rfl | hb
    · exact ⟨h1, h2⟩
    · have := ih b'.2 b h3 hb
      exact ⟨by omega, this.2⟩

/-- The blocks collected by `filterTags` form a chain starting at the
scan position. -/
theorem collectDropBlocks_chain (drop : List String) :
    ∀ (l : List DirectoryEntry) (pos : Nat),
      BlocksChain pos (collectDropBlocks drop l pos) := by
  intro l pos
  induction l, pos using collectDropBlocks.induct drop with
  | case1 pos => rw [collectDropBlocks]; trivial
  | case2 e rest pos he run ih =>
    rw [collectDropBlocks, if_pos he]
    refine ⟨Nat.le_refl _, by omega, ?_⟩
    exact blocksChain_mono _ _ _ (by omega) ih
  | case3 e rest pos he ih =>
    rw [collectDropBlocks, if_neg he]
    exact blocksChain_mono _ _ _ (by omega) ih

/-- With a singleton drop set, every entry position holding the dropped
tag is covered by some collected block. -/
theorem collectDropBlocks_cover (t : String) :
    ∀ (l : List DirectoryEntry) (pos : Nat), ∀ j, j < l.length →
      (l.getD j default).tag = t →
      ∃ b ∈ collectDropBlocks [t] l pos, b.1 ≤ pos + j ∧ pos + j < b.2 := by
  intro l pos
  induction l, pos using collectDropBlocks.induct ([t]) with
  | case1 pos => intro j hj _; simp at hj
  | case2 e rest pos he run ih =>
    intro j hj htag
    have het : e.tag = t := by simpa using he
    rw [collectDropBlocks, if_pos he]
    set w := (rest.takeWhile (fun e2 => decide (e2.tag = e.tag))).length with hw
    by_cases hjr : j < 1 + w
    · refine ⟨(pos, pos + (1 + w)), List.mem_cons_self _ _, by omega, by omega⟩
    · by_cases hjeq : j = 1 + w
      · exfalso
        have hwr : w < rest.length := by
          simp only [List.length_cons] at hj
          omega
        have hbnd := takeWhile_boundary
          (fun e2 => decide (e2.tag = e.tag)) rest (rest.get ⟨w, hwr⟩)
          (by rw [← hw, List.getElem?_eq_getElem hwr]; simp)
        simp only [decide_eq_false_iff_not] at hbnd
        have hsome : (e :: rest)[j]? = rest[w]? := by
          rw [hjeq, Nat.add_comm 1 w, List.getElem?_cons_succ]
        have htag' : (rest.get ⟨w, hwr⟩).tag = t := by
          rw [List.getD_eq_getElem?_getD, hsome,
            List.getElem?_eq_getElem hwr] at htag
          simpa using htag
        refine hbnd ?_
        rw [het]
        exact htag'
      · have hj1 : 1 + w < j := by omega
        have hj' : j - (1 + w) - 1 < (rest.drop (1 + w)).length := by
          simp only [List.length_cons] at hj
          simp only [List.length_drop]
          omega
        have hgd : (rest.drop (1 + w)).getD (j - (1 + w) - 1) default
            = (e :: rest).getD j default := by
          rw [List.getD_eq_getElem?_getD, List.getD_eq_getElem?_getD,
            List.getElem?_drop]
          have h1 : 1 + w + (j - (1 + w) - 1) = j - 1 := by omega
          rw [h1]
          cases j with
          | zero => omega
          | succ j' => simp
        obtain ⟨b, hb, hb1, hb2⟩ := ih (j - (1 + w) - 1) hj' (by rw [hgd]; exact htag)
        refine ⟨b, List.mem_cons_of_mem _ hb, by omega, by omega⟩
  | case3 e rest pos he ih =>
    intro j hj htag
    rw [collectDropBlocks, if_neg he]
    cases j with
    | zero =>
      exfalso
      have : e.tag = t := by simpa using htag
      exact he (by simpa using this)
    | succ j' =>
      have hj' : j' < rest.length := by simpa using hj
      obtain ⟨b, hb, hb1, hb2⟩ := ih j' hj' (by simpa using htag)
      exact ⟨b, hb, by omega, by omega⟩

/-- Every entry surviving `deleteFields` over a chained block list comes
from a position at or after the copy start that no block covers. -/
theorem deleteFieldsGo_mem :
    ∀ (bs : List (Nat × Nat)) (entries : List DirectoryEntry) (cs : Nat),
      BlocksChain cs bs →
      ∀ x ∈ deleteFieldsGo entries cs bs,
        ∃ i, entries[i]? = some x ∧ cs ≤ i ∧
          ∀ b ∈ bs, i < b.1 ∨ b.2 ≤ i := by
  intro bs
  induction bs with
  | nil =>
    intro entries cs _ x hx
    rw [deleteFieldsGo] at hx
    obtain ⟨k, hk⟩ := List.mem_iff_getElem?.mp hx
    rw [List.getElem?_drop] at hk
    exact ⟨cs + k, hk, by omega, by simp⟩
  | cons b bs ih =>
    intro entries cs hch x hx
    rw [deleteFieldsGo] at hx
    rcases List.mem_append.mp hx with hx | hx
    · obtain ⟨k, hk⟩ := List.mem_iff_getElem?.mp hx
      rw [List.getElem?_take] at hk
      by_cases hkb : k < b.1 - cs
      · rw [if_pos hkb, List.getElem?_drop] at hk
        refine ⟨cs + k, hk, by omega, ?_⟩
        intro b' hb'
        rcases List.mem_cons.mp hb' with rfl | hb'
        · left; omega
        · left
          have hble := blocksChain_lo_le bs b.2 b' hch.2.2 hb'
          have h1 := hch.1
          have h2 := hch.2.1
          omega
      · rw [if_neg hkb] at hk
        cases hk
    · obtain ⟨i, hget, hcs, hav⟩ := ih entries b.2 hch.2.2 x hx
      refine ⟨i, hget, ?_, ?_⟩
      · have h1 := hch.1
        have h2 := hch.2.1
        omega
      · intro b' hb'
        rcases List.mem_cons.mp hb' with rfl | hb'
        · right; omega
        · exact hav b' hb'

/-- C4: after `filterTags({t})` — a drop set containing only `t` — no
directory entry with tag `t` remains, and `getFieldIndex(t)` returns the
`FIELD_NOT_FOUND` sentinel, also when the tag-`t` entries occur in more
than one non-adjacent run. -/
theorem filterTags_singleton_spec (r : MarcRecord) (t : String) :
    (∀ e ∈ (r.filterTags [t]).directoryEntries, e.tag ≠ t)
    ∧ (r.filterTags [t]).getFieldIndex t = FIELD_NOT_FOUND := by
  have hmain : ∀ e ∈ (r.filterTags [t]).directoryEntries, e.tag ≠ t := by
    intro x hx hxt
    have hx' : x ∈ deleteFieldsGo r.directoryEntries 0
        (collectDropBlocks [t] r.directoryEntries 0) := by
      simpa [MarcRecord.filterTags, MarcRecord.deleteFields] using hx
    obtain ⟨i, hget, _, hav⟩ := deleteFieldsGo_mem _ r.directoryEntries 0
      (collectDropBlocks_chain [t] r.directoryEntries 0) x hx'
    obtain ⟨hil, hieq⟩ := List.getElem?_eq_some.mp hget
    obtain ⟨b, hb, hb1, hb2⟩ := collectDropBlocks_cover t r.directoryEntries 0 i
      hil (by rw [List.getD_eq_getElem _ default hil, hieq]; exact hxt)
    rcases hav b hb with h | h <;> omega
  refine ⟨hmain, ?_⟩
  have hnone : findTagIdx t (r.filterTags [t]).directoryEntries = none :=
    (findTagIdx_eq_none_iff t _).mpr hmain
  simp [MarcRecord.getFieldIndex, hnone]

end Marc
